import Mathlib

/-!
Verification of the content-defined chunking core of cameron-simpson/css:
the buffer scanners of `src/lib/python/cs/vt/_scan.c` (`scanbuf`,
`scanbuf2`) and the incremental edge scanner of
`src/lib/python/cs/vt/edgeDetect.c` (`rollingHash`, `rhash_checktail`,
`findEdgeNative`), shallowly embedded over `Nat`/`Int` with byte buffers
as `List Nat`.
-/

/-! ### Embedding of `_scan.c` -/

/-- Macro INCREMENT_ROLLING_HASH of `_scan.c`:
`((hash & 0x001fffff) << 7) | ((b & 0x7f) ^ ((b & 0x80) >> 7))`.
Since the left operand of the `|` has zero low 7 bits and the right
operand is below 2^7, the `|` is addition. `b & 0x7f` is `b % 128` and
`(b & 0x80) >> 7` is `b / 128 % 2`. -/
def increment_rolling_hash (h b : Nat) : Nat :=
  (h % 2097152) * 128 + ((b % 128) ^^^ (b / 128 % 2))

/-- Macro IS_MAGIC_HASH_VALUE of `_scan.c`: `hash % 4093 == 4091`. -/
def is_magic_hash_value (h : Nat) : Bool :=
  h % 4093 == 4091

/-- Scan loop of `scan_scanbuf` in `_scan.c`: walk the buffer, advance the
hash with INCREMENT_ROLLING_HASH, record every offset whose updated hash is
magic.  Returns (offsets recorded, final hash); `off` is the offset of the
first byte of the remaining buffer. -/
def scanbuf_loop : List Nat → Nat → Nat → List Nat × Nat
  | [], h, _ => ([], h)
  | b :: rest, h, off =>
    let h2 := increment_rolling_hash h b
    let r := scanbuf_loop rest h2 (off + 1)
    if is_magic_hash_value h2 then (off :: r.1, r.2) else r

/-- Function `scan_scanbuf` of `_scan.c`: its result list is
`[hash_value, offset_list]`, modelled as the pair (final hash, offsets). -/
def scanbuf (buf : List Nat) (h : Nat) : Nat × List Nat :=
  let r := scanbuf_loop buf h 0
  (r.2, r.1)

/-- Scan loop of `scan_scanbuf2` in `_scan.c`.  State: current hash `h`,
current block size `bs` (the C `block_size`, initialised from `sofar` and
incremented by the `for` update after each iteration), absolute offset
`off` of the current byte.  On each byte the hash is advanced first; a cut
is recorded at the current offset when `block_size >= min_block` and
(`block_size >= max_block` or the updated hash is magic), after which
`block_size` is zeroed (so the next iteration sees `1` after the loop
increment).  Returns (offsets, final hash, final block size). -/
def scanbuf2_loop : List Nat → Nat → Nat → Nat → Nat → Nat → List Nat × Nat × Nat
  | [], h, bs, _, _, _ => ([], h, bs)
  | b :: rest, h, bs, off, mn, mx =>
    let h2 := increment_rolling_hash h b
    if mn ≤ bs ∧ (mx ≤ bs ∨ is_magic_hash_value h2 = true) then
      let r := scanbuf2_loop rest h2 1 (off + 1) mn mx
      (off :: r.1, r.2)
    else
      scanbuf2_loop rest h2 (bs + 1) (off + 1) mn mx

/-- Function `scan_scanbuf2` of `_scan.c`: scans with carried-in hash and
partial block length `sofar`; its result list is `[hash_value,
offset_list]`, modelled as the pair (final hash, offsets).  The final
`block_size` of the loop is not part of the returned value. -/
def scanbuf2 (buf : List Nat) (h sofar mn mx : Nat) : Nat × List Nat :=
  let r := scanbuf2_loop buf h sofar 0 mn mx
  (r.2.1, r.1)

/-- Fold of INCREMENT_ROLLING_HASH over a byte sequence, the hash family
shared by `scanbuf` and `scanbuf2`. -/
def fold_hash (h : Nat) (bs : List Nat) : Nat :=
  bs.foldl increment_rolling_hash h

/-! ### Embedding of `edgeDetect.c` -/

/-- Constant RHASH_LEN of `edgeDetect.c`. -/
def RHASH_LEN : Nat := 4

/-- Struct `vocab` of `edgeDetect.c`: a match string, the offset of the
edge point from the start of the word, and the expected hash code for the
tail of the string. -/
structure vocab where
  word : List Nat
  offset : Int
  hash : Int
deriving DecidableEq

/-- Struct `rolling_hash` of `edgeDetect.c`: hash value, circular-window
write offset, window capacity `bufsize`, window contents `buf`, and the
installed vocabulary. -/
structure rolling_hash where
  hash : Int
  offset : Nat
  bufsize : Nat
  buf : List Nat
  words : List vocab
deriving DecidableEq

/-- Nibble-folded byte contribution used by `rollingHash`:
`((ch & 0x0f) << 4) + ((ch & 0xf0) >> 4)`.  The masks make the value
independent of `char` signedness. -/
def contrib (c : Nat) : Int :=
  Int.ofNat ((c % 16) * 16 + c / 16 % 16)

/-- Function `rollingHash` of `edgeDetect.c`: subtract the contribution of
the byte stored at the current write offset, add the contribution of the
incoming byte, store the incoming byte in that slot, and advance the write
offset with wrap-around at RHASH_LEN (the C wraps at RHASH_LEN even when
`bufsize` is larger).  Returns the updated state and the new hash. -/
def rollingHash (rhp : rolling_hash) (c : Nat) : rolling_hash × Int :=
  let ch := rhp.buf.getD rhp.offset 0
  let rh := rhp.hash - contrib ch + contrib c
  let buf2 := rhp.buf.set rhp.offset c
  let off2 := if RHASH_LEN ≤ rhp.offset + 1 then 0 else rhp.offset + 1
  (⟨rh, off2, rhp.bufsize, buf2, rhp.words⟩, rh)

/-- Iterated `rollingHash` over a byte sequence, keeping the state. -/
def feedBytes (rhp : rolling_hash) (cs : List Nat) : rolling_hash :=
  cs.foldl (fun st c => (rollingHash st c).1) rhp

/-- Comparison loop of `rhash_checktail` in `edgeDetect.c`: compare the
word bytes against the window starting at `off`, wrapping at `bufsize`.
A mismatch returns 0 (`false`); reaching the end of the word also returns
0 in the C source (its final statement is `return 0`), modelled
faithfully. -/
def rhash_checktail_loop (buf : List Nat) (bufsize : Nat) : List Nat → Nat → Bool
  | [], _ => false
  | c :: rest, off =>
    if buf.getD off 0 ≠ c then false
    else rhash_checktail_loop buf bufsize rest
      (if bufsize ≤ off + 1 then off + 1 - bufsize else off + 1)

/-- Function `rhash_checktail` of `edgeDetect.c`: start the comparison at
`offset - len`, adding `bufsize` when that is negative. -/
def rhash_checktail (rhp : rolling_hash) (w : List Nat) : Bool :=
  let off0 := if w.length ≤ rhp.offset then rhp.offset - w.length
              else rhp.offset + rhp.bufsize - w.length
  rhash_checktail_loop rhp.buf rhp.bufsize w off0

/-- Result of `findEdgeNative`: a violated entry assertion, falling off
the end of the scan loop (the C function has no return statement on that
path), or a returned edge offset. -/
inductive EdgeResult where
  | assertFail : EdgeResult
  | noReturn : EdgeResult
  | edge : Int → EdgeResult
deriving DecidableEq

/-- Scan loop of `findEdgeNative` in `edgeDetect.c`.  Per byte: advance
the rolling hash, increment `len` and `offset`; continue while
`len < minblock`; return `offset` when `len >= maxblock`; return `offset`
on the naive test `h == 511 && offset % 8 == 0`; otherwise, when the
vocabulary is non-empty, the first iteration of the vocabulary loop
returns unconditionally (in the C the `return offset;` after the guarded
`offset += ...` adjustment is not inside the `if` body), adjusting the
offset only when the first entry's hash matches and `rhash_checktail`
accepts. -/
def findEdgeLoop (words : List vocab) (mn mx : Nat) :
    rolling_hash → List Nat → Nat → Nat → EdgeResult × rolling_hash
  | rhp, [], _, _ => (.noReturn, rhp)
  | rhp, c :: rest, off, len =>
    let r := rollingHash rhp c
    let len2 := len + 1
    let off2 := off + 1
    if len2 < mn then findEdgeLoop words mn mx r.1 rest off2 len2
    else if mx ≤ len2 then (.edge (Int.ofNat off2), r.1)
    else if r.2 = 511 ∧ off2 % 8 = 0 then (.edge (Int.ofNat off2), r.1)
    else
      match words with
      | [] => findEdgeLoop words mn mx r.1 rest off2 len2
      | v :: _ =>
        if r.2 = v.hash ∧ rhash_checktail r.1 v.word = true then
          (.edge (Int.ofNat off2 + v.offset - Int.ofNat v.word.length), r.1)
        else (.edge (Int.ofNat off2), r.1)

/-- Length of a C string modelled as a byte list: bytes up to the first
NUL. -/
def strlenN (s : List Nat) : Nat :=
  (s.takeWhile (fun c => c ≠ 0)).length

/-- Function `findEdgeNative` of `edgeDetect.c`: the entry assertions
`offset >= 0`, `offset <= strlen(s)`, `minblock > 0`,
`minblock < maxblock` are modelled as a guard returning `assertFail`;
otherwise the scan loop runs from `s + offset` up to the terminating NUL
with `len = pendlen + offset`. -/
def findEdgeNative (rhp : rolling_hash) (s : List Nat)
    (offset pendlen mn mx : Nat) : EdgeResult × rolling_hash :=
  if offset ≤ strlenN s ∧ 0 < mn ∧ mn < mx then
    findEdgeLoop rhp.words mn mx rhp
      ((s.drop offset).takeWhile (fun c => c ≠ 0)) offset (pendlen + offset)
  else (.assertFail, rhp)

/-! ### Concrete contexts used in the claim instances -/

/-- Context for the C3 instance: fresh window of capacity 4, vocabulary
`[{word "END", cutOffset 0, tailHash 999}]` whose tail hash does not
collide with any hash arising in the scan. -/
def ctxC3 : rolling_hash :=
  ⟨0, 0, 4, [0, 0, 0, 0], [⟨[69, 78, 68], 0, 999⟩]⟩

/-- Context for the C4 instance: fresh window of capacity 4, vocabulary
`[{word "END", cutOffset 0, tailHash 515}]`; 515 is the true sliding
window hash of this context just after consuming "xEND". -/
def ctxC4 : rolling_hash :=
  ⟨0, 0, 4, [0, 0, 0, 0], [⟨[69, 78, 68], 0, 515⟩]⟩

/-- Context for the C5 instance: a vocabulary whose longest word "WORDS"
has five bytes, hence window capacity 5 per `rhash_reset`, zeroed
window. -/
def ctxC5 : rolling_hash :=
  ⟨0, 0, 5, [0, 0, 0, 0, 0], [⟨[87, 79, 82, 68, 83], 0, 0⟩]⟩

/-- Fresh vocabulary-free context used by witnesses. -/
def ctxFresh : rolling_hash :=
  ⟨0, 0, 4, [0, 0, 0, 0], []⟩

/-! ### Helper lemmas for the buffer scanners -/

/-- Unfolding equation for `scanbuf_loop` on a non-empty buffer. -/
theorem scanbuf_loop_cons (b : Nat) (rest : List Nat) (h off : Nat) :
    scanbuf_loop (b :: rest) h off =
      if is_magic_hash_value (increment_rolling_hash h b) then
        (off :: (scanbuf_loop rest (increment_rolling_hash h b) (off + 1)).1,
          (scanbuf_loop rest (increment_rolling_hash h b) (off + 1)).2)
      else scanbuf_loop rest (increment_rolling_hash h b) (off + 1) := rfl

/-- Unfolding equation for `scanbuf2_loop` on a non-empty buffer. -/
theorem scanbuf2_loop_cons (b : Nat) (rest : List Nat) (h bs off mn mx : Nat) :
    scanbuf2_loop (b :: rest) h bs off mn mx =
      if mn ≤ bs ∧ (mx ≤ bs ∨ is_magic_hash_value (increment_rolling_hash h b) = true) then
        (off :: (scanbuf2_loop rest (increment_rolling_hash h b) 1 (off + 1) mn mx).1,
          (scanbuf2_loop rest (increment_rolling_hash h b) 1 (off + 1) mn mx).2)
      else scanbuf2_loop rest (increment_rolling_hash h b) (bs + 1) (off + 1) mn mx := rfl

/-- Scanning a concatenation with `scanbuf_loop` is scanning the first
part and then the second from the carried hash and offset. -/
theorem scanbuf_loop_append (xs ys : List Nat) (h off : Nat) :
    scanbuf_loop (xs ++ ys) h off =
      ((scanbuf_loop xs h off).1 ++
        (scanbuf_loop ys (scanbuf_loop xs h off).2 (off + xs.length)).1,
       (scanbuf_loop ys (scanbuf_loop xs h off).2 (off + xs.length)).2) := by
  induction xs generalizing h off with
  | nil => simp [scanbuf_loop]
  | cons b rest ih =>
    rw [List.cons_append, scanbuf_loop_cons, scanbuf_loop_cons, ih]
    have harith : off + 1 + rest.length = off + (rest.length + 1) := by omega
    by_cases hm : is_magic_hash_value (increment_rolling_hash h b) <;>
      simp [hm, harith]

/-- Offsets produced by `scanbuf_loop` translate with the start offset;
the final hash does not depend on it. -/
theorem scanbuf_loop_shift (xs : List Nat) (h off k : Nat) :
    scanbuf_loop xs h (off + k) =
      ((scanbuf_loop xs h off).1.map (fun o => o + k), (scanbuf_loop xs h off).2) := by
  induction xs generalizing h off with
  | nil => simp [scanbuf_loop]
  | cons b rest ih =>
    rw [scanbuf_loop_cons, scanbuf_loop_cons]
    have harith : off + k + 1 = (off + 1) + k := by omega
    by_cases hm : is_magic_hash_value (increment_rolling_hash h b) <;>
      simp [hm, harith, ih]

/-- Scanning a concatenation with `scanbuf2_loop` is scanning the first
part and then the second from the carried hash, block size and offset. -/
theorem scanbuf2_loop_append (xs ys : List Nat) (h bs off mn mx : Nat) :
    scanbuf2_loop (xs ++ ys) h bs off mn mx =
      ((scanbuf2_loop xs h bs off mn mx).1 ++
        (scanbuf2_loop ys (scanbuf2_loop xs h bs off mn mx).2.1
          (scanbuf2_loop xs h bs off mn mx).2.2 (off + xs.length) mn mx).1,
       (scanbuf2_loop ys (scanbuf2_loop xs h bs off mn mx).2.1
          (scanbuf2_loop xs h bs off mn mx).2.2 (off + xs.length) mn mx).2) := by
  induction xs generalizing h bs off with
  | nil => simp [scanbuf2_loop]
  | cons b rest ih =>
    rw [List.cons_append, scanbuf2_loop_cons, scanbuf2_loop_cons]
    have harith : off + 1 + rest.length = off + (rest.length + 1) := by omega
    by_cases hc : mn ≤ bs ∧ (mx ≤ bs ∨ is_magic_hash_value (increment_rolling_hash h b) = true) <;>
      simp [hc, harith, ih]

/-- Offsets produced by `scanbuf2_loop` translate with the start offset;
final hash and block size do not depend on it. -/
theorem scanbuf2_loop_shift (xs : List Nat) (h bs off k mn mx : Nat) :
    scanbuf2_loop xs h bs (off + k) mn mx =
      ((scanbuf2_loop xs h bs off mn mx).1.map (fun o => o + k),
       (scanbuf2_loop xs h bs off mn mx).2) := by
  induction xs generalizing h bs off with
  | nil => simp [scanbuf2_loop]
  | cons b rest ih =>
    rw [scanbuf2_loop_cons, scanbuf2_loop_cons]
    have harith : off + k + 1 = (off + 1) + k := by omega
    by_cases hc : mn ≤ bs ∧ (mx ≤ bs ∨ is_magic_hash_value (increment_rolling_hash h b) = true) <;>
      simp [hc, harith, ih]

/-- On an all-zero buffer with hash 0 the hash stays 0 and, while the
running block size stays below `mx`, no offset is recorded. -/
theorem scanbuf2_loop_zeros (mn mx : Nat) :
    ∀ n bs off, bs + n ≤ mx →
      scanbuf2_loop (List.replicate n 0) 0 bs off mn mx = ([], 0, bs + n) := by
  intro n
  induction n with
  | zero => intro bs off _; simp [scanbuf2_loop]
  | succ m ih =>
    intro bs off hle
    rw [List.replicate_succ, scanbuf2_loop_cons]
    have h0 : increment_rolling_hash 0 0 = 0 := rfl
    have hmag : is_magic_hash_value 0 = false := rfl
    rw [h0]
    have hcond : ¬ (mn ≤ bs ∧ (mx ≤ bs ∨ is_magic_hash_value 0 = true)) := by
      rintro ⟨-, hor⟩
      rcases hor with hbs | hm
      · omega
      · rw [hmag] at hm; exact Bool.false_ne_true hm
    rw [if_neg hcond, ih (bs + 1) (off + 1) (by omega)]
    have : bs + 1 + m = bs + (m + 1) := by omega
    rw [this]

/-- Step of the 8192-zero-byte scan at offset 4096: the block size has
reached `max_block`, forcing a cut; the remaining 4095 bytes produce no
further cut. -/
theorem scanbuf2_loop_zero_tail :
    scanbuf2_loop (0 :: List.replicate 4095 0) 0 4096 4096 1024 4096 = ([4096], 0, 4096) := by
  rw [scanbuf2_loop_cons]
  have h0 : increment_rolling_hash 0 0 = 0 := rfl
  rw [h0, if_pos ⟨by norm_num, Or.inl (by norm_num)⟩]
  have h2 := scanbuf2_loop_zeros 1024 4096 4095 1 4097 (by norm_num)
  rw [show (1 : Nat) + 4095 = 4096 by norm_num] at h2
  rw [show (4096 : Nat) + 1 = 4097 by norm_num, h2]

/-- Computation of `scanbuf2_loop` on the 8192-byte all-zero buffer with
initial hash 0, carried length 0, `min_block` 1024 and `max_block` 4096:
one forced cut, at offset 4096. -/
theorem scanbuf2_loop_zero8192 :
    scanbuf2_loop (List.replicate 8192 0) 0 0 0 1024 4096 = ([4096], 0, 4096) := by
  have hsplit : List.replicate 8192 (0 : Nat) =
      List.replicate 4096 0 ++ (0 :: List.replicate 4095 0) := by
    rw [show (8192 : Nat) = 4096 + (4095 + 1) by norm_num, List.replicate_add,
      List.replicate_succ]
  rw [hsplit, scanbuf2_loop_append,
    scanbuf2_loop_zeros 1024 4096 4096 0 0 (by norm_num)]
  simp only [List.length_replicate]
  rw [scanbuf2_loop_zero_tail]
  simp

/-- Final `block_size` of the `scanbuf2` loop as a function of the
returned offsets: `bs + buflen` when no offset was emitted, otherwise
`off + buflen - lastOffset`. -/
theorem scanbuf2_loop_final_bs (mn mx : Nat) :
    ∀ (bytes : List Nat) (h bs off : Nat),
      ((scanbuf2_loop bytes h bs off mn mx).1 = [] →
        (scanbuf2_loop bytes h bs off mn mx).2.2 = bs + bytes.length) ∧
      (∀ o, (scanbuf2_loop bytes h bs off mn mx).1.getLast? = some o →
        (scanbuf2_loop bytes h bs off mn mx).2.2 = off + bytes.length - o) := by
  intro bytes
  induction bytes with
  | nil => intro h bs off; simp [scanbuf2_loop]
  | cons b rest ih =>
    intro h bs off
    rw [scanbuf2_loop_cons]
    by_cases hc : mn ≤ bs ∧ (mx ≤ bs ∨ is_magic_hash_value (increment_rolling_hash h b) = true)
    · rw [if_pos hc]
      have ihr := ih (increment_rolling_hash h b) 1 (off + 1)
      constructor
      · intro hnil
        exact absurd hnil (List.cons_ne_nil _ _)
      · intro o hlast
        rcases hr : (scanbuf2_loop rest (increment_rolling_hash h b) 1 (off + 1) mn mx).1
          with _ | ⟨o1, os⟩
        · rw [hr, List.getLast?_singleton] at hlast
          have hbs2 := ihr.1 hr
          simp only [Option.some.injEq] at hlast
          subst hlast
          simp only [List.length_cons]
          omega
        · rw [hr, List.getLast?_cons_cons] at hlast
          have hbs2 := ihr.2 o (by rw [hr]; exact hlast)
          simp only [List.length_cons]
          omega
    · rw [if_neg hc]
      have ihr := ih (increment_rolling_hash h b) (bs + 1) (off + 1)
      constructor
      · intro hnil
        have hbs2 := ihr.1 hnil
        simp only [List.length_cons]
        omega
      · intro o hlast
        have hbs2 := ihr.2 o hlast
        simp only [List.length_cons]
        omega

/-- Spacing invariant of the `scanbuf2` loop: if a first offset is
emitted it lies at or after `off`, the block that ends there has length
at least `min_block` (counted from the carried-in `bs`), at most
`max_block` when `bs` entered within bounds; and consecutive emitted
offsets are separated by at least `min_block` and at most `max_block`. -/
theorem scanbuf2_loop_spacing (mn mx : Nat) (hmn : 0 < mn) (hmx : mn < mx) :
    ∀ (bytes : List Nat) (h bs off : Nat),
      (∀ o ∈ ((scanbuf2_loop bytes h bs off mn mx).1).head?,
        off ≤ o ∧ mn ≤ bs + (o - off) ∧ (bs ≤ mx → bs + (o - off) ≤ mx)) ∧
      List.Chain' (fun a b => mn ≤ b - a ∧ b - a ≤ mx)
        (scanbuf2_loop bytes h bs off mn mx).1 := by
  intro bytes
  induction bytes with
  | nil => intro h bs off; simp [scanbuf2_loop]
  | cons b rest ih =>
    intro h bs off
    rw [scanbuf2_loop_cons]
    by_cases hc : mn ≤ bs ∧ (mx ≤ bs ∨ is_magic_hash_value (increment_rolling_hash h b) = true)
    · rw [if_pos hc]
      have ihr := ih (increment_rolling_hash h b) 1 (off + 1)
      constructor
      · intro o ho
        simp only [List.head?_cons, Option.mem_def, Option.some.injEq] at ho
        subst ho
        exact ⟨le_refl _, by omega, by omega⟩
      · rw [List.chain'_cons']
        refine ⟨?_, ihr.2⟩
        intro o ho
        have hh := ihr.1 o ho
        have h1mx : (1 : Nat) ≤ mx := by omega
        have := hh.2.2 h1mx
        omega
    · rw [if_neg hc]
      have hbslt : bs < mx := by
        by_contra hge
        push_neg at hge
        exact hc ⟨by omega, Or.inl hge⟩
      have ihr := ih (increment_rolling_hash h b) (bs + 1) (off + 1)
      refine ⟨?_, ihr.2⟩
      intro o ho
      have hh := ihr.1 o ho
      have hub : bs + 1 ≤ mx := by omega
      have := hh.2.2 hub
      omega

/-- Counting invariant of the `scanbuf2` loop: `min_block` times the
number of emitted offsets is bounded both by `buflen + bs` and by
`buflen + min_block`. -/
theorem scanbuf2_loop_count (mn mx : Nat) :
    ∀ (bytes : List Nat) (h bs off : Nat),
      mn * ((scanbuf2_loop bytes h bs off mn mx).1).length ≤ bytes.length + bs ∧
      mn * ((scanbuf2_loop bytes h bs off mn mx).1).length ≤ bytes.length + mn := by
  intro bytes
  induction bytes with
  | nil => intro h bs off; simp [scanbuf2_loop]
  | cons b rest ih =>
    intro h bs off
    rw [scanbuf2_loop_cons]
    by_cases hc : mn ≤ bs ∧ (mx ≤ bs ∨ is_magic_hash_value (increment_rolling_hash h b) = true)
    · rw [if_pos hc]
      have ihr := ih (increment_rolling_hash h b) 1 (off + 1)
      simp only [List.length_cons, Nat.mul_succ]
      obtain ⟨ih1, ih2⟩ := ihr
      have hbs := hc.1
      omega
    · rw [if_neg hc]
      have ihr := ih (increment_rolling_hash h b) (bs + 1) (off + 1)
      obtain ⟨ih1, ih2⟩ := ihr
      simp only [List.length_cons]
      omega

/-- Value injected per byte by INCREMENT_ROLLING_HASH is below 2^7. -/
theorem hash_low7_lt (b : Nat) : (b % 128) ^^^ (b / 128 % 2) < 128 := by
  have h1 : b % 128 < 2 ^ 7 :=
    lt_of_lt_of_le (Nat.mod_lt b (by norm_num)) (by norm_num)
  have h2 : b / 128 % 2 < 2 ^ 7 :=
    lt_of_lt_of_le (Nat.mod_lt _ (by norm_num)) (by norm_num)
  have := Nat.xor_lt_two_pow h1 h2
  norm_num at this
  exact this

/-- Closed form after four INCREMENT_ROLLING_HASH steps: the result
depends only on the four bytes, not on the starting hash. -/
theorem fold_hash_four (g a b c d : Nat) :
    fold_hash g [a, b, c, d] =
      ((a % 128) ^^^ (a / 128 % 2)) * 2097152 + ((b % 128) ^^^ (b / 128 % 2)) * 16384 +
        ((c % 128) ^^^ (c / 128 % 2)) * 128 + ((d % 128) ^^^ (d / 128 % 2)) := by
  have ha := hash_low7_lt a
  have hb := hash_low7_lt b
  have hc := hash_low7_lt c
  have hd := hash_low7_lt d
  simp only [fold_hash, List.foldl, increment_rolling_hash]
  omega

/-! ### Claim theorems -/

/-- Claim C1, counterexample: `scanbuf2` on the 8192-byte all-zero buffer
with initial hash 0, carried length 0, `min_block` 1024 and `max_block`
4096 does not return the offsets [4095, 8191] stated by the claim. -/
theorem claim_C1_counterexample :
    (scanbuf2 (List.replicate 8192 0) 0 0 1024 4096).2 ≠ [4095, 8191] := by
  simp only [scanbuf2, scanbuf2_loop_zero8192]
  decide

/-- Claim C1, amended: on that input `scanbuf2` returns final hash 0 and
exactly one boundary, forced by the `max_block` cap at offset 4096 (the C
loop tests `block_size` before counting the current byte, so the first
forced cut lands at offset `max_block`; the second would land at 8192,
past the end of the buffer). -/
theorem claim_C1_amended :
    scanbuf2 (List.replicate 8192 0) 0 0 1024 4096 = (0, [4096]) := by
  simp only [scanbuf2, scanbuf2_loop_zero8192]

/-- Claim C2, counterexample: two `scanbuf2` calls with identical return
values but different final accumulated lengths, so the returned value
carries no `accumulatedLength` component — the C builds `ret_list` from
the hash and the offset list only. -/
theorem claim_C2_counterexample :
    scanbuf2 [0] 0 0 2 4 = scanbuf2 [0] 0 1 2 4 ∧
    (scanbuf2_loop [0] 0 0 0 2 4).2.2 ≠ (scanbuf2_loop [0] 0 1 0 2 4).2.2 := by
  decide

/-- Claim C2, amended: `scanbuf2` returns two chaining values, the final
hash and the offset list, but not the final accumulated length; the
caller can reconstruct that length as `sofar + buflen` when no boundary
was emitted and as `buflen - lastOffset` otherwise. -/
theorem claim_C2_amended (buf : List Nat) (h sofar mn mx : Nat) :
    ((scanbuf2 buf h sofar mn mx).2 = [] →
      (scanbuf2_loop buf h sofar 0 mn mx).2.2 = sofar + buf.length) ∧
    (∀ o, ((scanbuf2 buf h sofar mn mx).2).getLast? = some o →
      (scanbuf2_loop buf h sofar 0 mn mx).2.2 = buf.length - o) := by
  have hfb := scanbuf2_loop_final_bs mn mx buf h sofar 0
  refine ⟨hfb.1, ?_⟩
  intro o ho
  have := hfb.2 o ho
  omega

/-- Claim C3: with a non-empty vocabulary, `findEdgeNative` reports a cut
at a position where every test fails: the hash after the byte is 22, not
511; it differs from the vocabulary entry's tail hash 999; the tail check
rejects; the length 1 lies in [min_block, max_block); yet the unguarded
`return offset` inside the vocabulary loop fires. -/
theorem claim_C3_bug :
    (findEdgeNative ctxC3 [97] 0 0 1 10).1 = EdgeResult.edge 1 ∧
    (rollingHash ctxC3 97).2 ≠ 511 ∧
    (rollingHash ctxC3 97).2 ≠ (⟨[69, 78, 68], 0, 999⟩ : vocab).hash ∧
    rhash_checktail (rollingHash ctxC3 97).1 [69, 78, 68] = false := by
  decide

/-- Claim C4: scanning the unit "xEND" with the single-entry vocabulary
{word "END", cutOffset 0, tailHash 515} — 515 being the true window hash
just after the final "D" — with `min_block` 1 already satisfied,
`findEdgeNative` returns offset 1 (after the first byte), not the
boundary after the "D" at offset 4. -/
theorem claim_C4_bug :
    (findEdgeNative ctxC4 [120, 69, 78, 68] 0 0 1 100).1 = EdgeResult.edge 1 ∧
    (feedBytes ctxC4 [120, 69, 78, 68]).hash = 515 := by
  decide

/-- Claim C5: in a context whose window capacity is 5 (vocabulary word of
five bytes), feeding five bytes leaves the write offset at 1 — it wrapped
at RHASH_LEN = 4, never touching slot 4 — and the hash is 224, the sum of
the contributions of the last four bytes only, not 240, the sum over all
five. -/
theorem claim_C5_bug :
    (feedBytes ctxC5 [1, 2, 3, 4, 5]).hash = 224 ∧
    (feedBytes ctxC5 [1, 2, 3, 4, 5]).offset = 1 ∧
    (feedBytes ctxC5 [1, 2, 3, 4, 5]).buf = [5, 2, 3, 4, 0] ∧
    ¬ ((feedBytes ctxC5 [1, 2, 3, 4, 5]).hash = 240 ∧
        (feedBytes ctxC5 [1, 2, 3, 4, 5]).offset % 5 = 0) := by
  decide

/-- Claim C6: for `scanbuf2` with `0 < min_block < max_block`, any two
consecutive returned offsets differ by at least `min_block` and at most
`max_block`; and when the carried-in length is 0 the first offset also
lies within those bounds, so only the first chunk, and only with a
non-zero carried length, may violate them. -/
theorem claim_C6_spacing (buf : List Nat) (h sofar mn mx : Nat)
    (hmn : 0 < mn) (hmx : mn < mx) :
    List.Chain' (fun a b => mn ≤ b - a ∧ b - a ≤ mx) (scanbuf2 buf h sofar mn mx).2 ∧
    (sofar = 0 → ∀ o ∈ ((scanbuf2 buf h sofar mn mx).2).head?, mn ≤ o ∧ o ≤ mx) := by
  have hsp := scanbuf2_loop_spacing mn mx hmn hmx buf h sofar 0
  refine ⟨hsp.2, ?_⟩
  intro h0 o ho
  subst h0
  obtain ⟨h1, h2, h3⟩ := hsp.1 o ho
  have h4 := h3 (by omega)
  omega

/-- Witness for claim C6 at a concrete input. -/
theorem claim_C6_spacing_witness :
    List.Chain' (fun a b => 1 ≤ b - a ∧ b - a ≤ 2) (scanbuf2 [0, 0, 0] 0 0 1 2).2 ∧
    (0 = 0 → ∀ o ∈ ((scanbuf2 [0, 0, 0] 0 0 1 2).2).head?, 1 ≤ o ∧ o ≤ 2) :=
  claim_C6_spacing [0, 0, 0] 0 0 1 2 (by decide) (by decide)

/-- Claim C7: resumability.  For `scanbuf`, scanning `b1 ++ b2` equals
scanning `b1` and then `b2` from the carried hash, with the second call's
offsets shifted by `b1.length`; for `scanbuf2` likewise, threading the
carried hash (the returned one) and the carried block length (the loop's
final `block_size`). -/
theorem claim_C7_resumability (b1 b2 : List Nat) (h sofar mn mx : Nat) :
    scanbuf (b1 ++ b2) h =
      ((scanbuf b2 (scanbuf b1 h).1).1,
        (scanbuf b1 h).2 ++ ((scanbuf b2 (scanbuf b1 h).1).2).map (fun o => o + b1.length)) ∧
    scanbuf2 (b1 ++ b2) h sofar mn mx =
      ((scanbuf2 b2 (scanbuf2 b1 h sofar mn mx).1
          (scanbuf2_loop b1 h sofar 0 mn mx).2.2 mn mx).1,
        (scanbuf2 b1 h sofar mn mx).2 ++
          ((scanbuf2 b2 (scanbuf2 b1 h sofar mn mx).1
            (scanbuf2_loop b1 h sofar 0 mn mx).2.2 mn mx).2).map (fun o => o + b1.length)) := by
  constructor
  · show ((scanbuf_loop (b1 ++ b2) h 0).2, (scanbuf_loop (b1 ++ b2) h 0).1) = _
    rw [scanbuf_loop_append]
    have hs := scanbuf_loop_shift b2 (scanbuf_loop b1 h 0).2 0 b1.length
    rw [show (0 : Nat) + b1.length = b1.length from by omega] at hs
    rw [show (0 : Nat) + b1.length = b1.length from by omega, hs]
    simp [scanbuf]
  · show ((scanbuf2_loop (b1 ++ b2) h sofar 0 mn mx).2.1,
        (scanbuf2_loop (b1 ++ b2) h sofar 0 mn mx).1) = _
    rw [scanbuf2_loop_append]
    have hs := scanbuf2_loop_shift b2 (scanbuf2_loop b1 h sofar 0 mn mx).2.1
      (scanbuf2_loop b1 h sofar 0 mn mx).2.2 0 b1.length mn mx
    rw [show (0 : Nat) + b1.length = b1.length from by omega] at hs
    rw [show (0 : Nat) + b1.length = b1.length from by omega, hs]
    simp [scanbuf2]

/-- Claim C8, counterexample: with the invalid configuration
`min_block = max_block = 1`, `scanbuf2` does not reject — it scans and
emits boundaries. -/
theorem claim_C8_counterexample : (scanbuf2 [0, 0, 0] 0 0 1 1).2 ≠ [] := by
  decide

/-- Claim C8, amended: `findEdgeNative` does guard `minblock > 0` and
`minblock < maxblock` with entry assertions before scanning, but
`scanbuf2` performs no validation: with `min_block >= max_block` it scans
anyway and returns boundaries (and with `min_block = 0` the C sizes its
offsets array with a division by zero). -/
theorem claim_C8_amended :
    (∀ (rhp : rolling_hash) (s : List Nat) (offset pendlen mn mx : Nat),
      mn = 0 ∨ mx ≤ mn →
        (findEdgeNative rhp s offset pendlen mn mx).1 = EdgeResult.assertFail) ∧
    scanbuf2 [0, 0, 0] 0 0 1 1 = (0, [1, 2]) := by
  constructor
  · intro rhp s offset pendlen mn mx hbad
    unfold findEdgeNative
    have hguard : ¬ (offset ≤ strlenN s ∧ 0 < mn ∧ mn < mx) := by
      rintro ⟨-, hmn2, hmx2⟩
      omega
    rw [if_neg hguard]
  · decide

/-- Witness for the amended claim C8 at a concrete invalid
configuration. -/
theorem claim_C8_amended_witness :
    (findEdgeNative ctxFresh [3] 0 0 0 5).1 = EdgeResult.assertFail :=
  claim_C8_amended.1 ctxFresh [3] 0 0 0 5 (Or.inl rfl)

/-- Claim C9, counterexample: two initial hashes, empty prefixes and the
common 3-byte suffix [0, 0, 0] give different folded hashes, so the hash
does not depend only on the last 3 bytes. -/
theorem claim_C9_counterexample :
    fold_hash 1 ([] ++ [0, 0, 0]) ≠ fold_hash 0 ([] ++ [0, 0, 0]) := by
  decide

/-- Claim C9, amended: after consuming a common suffix of length 4 the
folded hash agrees for any initial hashes and any prefixes — the mask
keeps 21 bits = 3 bytes of history and each step appends 7 more, so the
window is the last 4 bytes, not 3. -/
theorem claim_C9_amended (h1 h2 : Nat) (p1 p2 : List Nat) (a b c d : Nat) :
    fold_hash h1 (p1 ++ [a, b, c, d]) = fold_hash h2 (p2 ++ [a, b, c, d]) := by
  have e1 : fold_hash h1 (p1 ++ [a, b, c, d]) = fold_hash (fold_hash h1 p1) [a, b, c, d] := by
    simp [fold_hash, List.foldl_append]
  have e2 : fold_hash h2 (p2 ++ [a, b, c, d]) = fold_hash (fold_hash h2 p2) [a, b, c, d] := by
    simp [fold_hash, List.foldl_append]
  rw [e1, e2, fold_hash_four, fold_hash_four]

/-- Claim C10: with `min_block >= 1` the number of offsets emitted by
`scanbuf2` is at most `buflen / min_block + 2`, the capacity the C
allocates for its offsets array. -/
theorem claim_C10_capacity (buf : List Nat) (h sofar mn mx : Nat) (hmn : 1 ≤ mn) :
    ((scanbuf2 buf h sofar mn mx).2).length ≤ buf.length / mn + 2 := by
  have hcount := (scanbuf2_loop_count mn mx buf h sofar 0).2
  have hL : ((scanbuf2_loop buf h sofar 0 mn mx).1).length ≤ (buf.length + mn) / mn :=
    (Nat.le_div_iff_mul_le hmn).mpr (by rw [Nat.mul_comm]; exact hcount)
  have hdiv : (buf.length + mn) / mn = buf.length / mn + 1 := Nat.add_div_right _ hmn
  have heq : ((scanbuf2 buf h sofar mn mx).2).length
      = ((scanbuf2_loop buf h sofar 0 mn mx).1).length := rfl
  omega

/-- Witness for claim C10 at a concrete input. -/
theorem claim_C10_capacity_witness :
    ((scanbuf2 [0, 0, 0] 0 0 1 2).2).length ≤ ([0, 0, 0] : List Nat).length / 1 + 2 :=
  claim_C10_capacity [0, 0, 0] 0 0 1 2 (by decide)
